import Mathlib

/-!
Shallow embedding of the SOM utility module (awesom/utilities.py) and proofs
about its documented behaviour.  Numeric arrays are modelled as lists of
rationals (floating point arithmetic is modelled exactly), external numpy and
scipy subroutines (argmin, argsort, Dirichlet sampling, distance metrics) are
modelled from their documented semantics or injected as parameters, and Python
generator functions are modelled as suspended computations.
-/

namespace Awesom

/-- Model of grid_iter: itertools.product over range(n_rows) and range(n_cols),
producing (row, col) pairs in row-major order. -/
def grid_iter (n_rows n_cols : ℕ) : List (ℕ × ℕ) :=
  (List.range n_rows).flatMap (fun r => (List.range n_cols).map (fun c => (r, c)))

/-- Model of grid: materializes grid_iter into a two-column integer array. -/
def grid (n_rows n_cols : ℕ) : List (ℕ × ℕ) :=
  grid_iter n_rows n_cols

theorem grid_iter_eq_map (n m : ℕ) :
    grid_iter n m = (List.range (n * m)).map (fun i => (i / m, i % m)) := by
  rcases Nat.eq_zero_or_pos m with hm | hm
  · subst hm
    simp [grid_iter]
  induction n with
  | zero => simp [grid_iter]
  | succ k ih =>
    unfold grid_iter at ih ⊢
    rw [List.range_succ, List.flatMap_append, ih]
    have h2 : (k + 1) * m = k * m + m := Nat.succ_mul k m
    rw [h2, List.range_add, List.map_append, List.map_map]
    congr 1
    · simp only [List.flatMap_cons, List.flatMap_nil, List.append_nil]
      refine List.map_congr_left ?_
      intro c hc
      have hcm : c < m := List.mem_range.mp hc
      simp only [Function.comp_apply]
      have hdiv : (k * m + c) / m = k := by
        rw [Nat.mul_comm k m, Nat.mul_add_div hm, Nat.div_eq_of_lt hcm]
        omega
      have hmod : (k * m + c) % m = c := by
        rw [Nat.mul_comm k m, Nat.mul_add_mod, Nat.mod_eq_of_lt hcm]
      rw [hdiv, hmod]

/-- C9: grid(n_rows, n_cols) has n_rows*n_cols rows, all pairs distinct, in
row-major order: first pair (0,0), last pair (n_rows-1, n_cols-1), and the
pair at flat index i is (i / n_cols, i % n_cols). -/
theorem grid_rowmajor (n_rows n_cols : ℕ) (hr : 1 ≤ n_rows) (hc : 1 ≤ n_cols) :
    (grid n_rows n_cols).length = n_rows * n_cols ∧
    (grid n_rows n_cols).Nodup ∧
    (grid n_rows n_cols).get? 0 = some (0, 0) ∧
    (grid n_rows n_cols).get? (n_rows * n_cols - 1) = some (n_rows - 1, n_cols - 1) ∧
    ∀ i < n_rows * n_cols,
      (grid n_rows n_cols).get? i = some (i / n_cols, i % n_cols) := by
  have hpos : 0 < n_rows * n_cols := Nat.mul_pos hr hc
  have hg : grid n_rows n_cols
      = (List.range (n_rows * n_cols)).map (fun i => (i / n_cols, i % n_cols)) :=
    grid_iter_eq_map n_rows n_cols
  have hget : ∀ i < n_rows * n_cols,
      (grid n_rows n_cols).get? i = some (i / n_cols, i % n_cols) := by
    intro i hi
    rw [hg, List.get?_map, List.get?_range hi]
    rfl
  refine ⟨?_, ?_, ?_, ?_, hget⟩
  · rw [hg, List.length_map, List.length_range]
  · rw [hg]
    refine List.Nodup.map_on ?_ (List.nodup_range _)
    intro x hx y hy hxy
    have h1 : x / n_cols = y / n_cols := congrArg Prod.fst hxy
    have h2 : x % n_cols = y % n_cols := congrArg Prod.snd hxy
    have hdx := Nat.div_add_mod x n_cols
    have hdy := Nat.div_add_mod y n_cols
    rw [h1, h2] at hdx
    omega
  · have := hget 0 hpos
    simpa using this
  · obtain ⟨a, rfl⟩ : ∃ a, n_rows = a + 1 := ⟨n_rows - 1, by omega⟩
    obtain ⟨b, rfl⟩ : ∃ b, n_cols = b + 1 := ⟨n_cols - 1, by omega⟩
    have hsplit : (a + 1) * (b + 1) = a * (b + 1) + (b + 1) := by ring
    have hidx : (a + 1) * (b + 1) - 1 = (b + 1) * a + b := by
      rw [hsplit, Nat.mul_comm a (b + 1)]
      omega
    have hlt : (a + 1) * (b + 1) - 1 < (a + 1) * (b + 1) := by omega
    rw [hget _ hlt, hidx]
    have hb1 : 0 < b + 1 := Nat.succ_pos b
    rw [Nat.mul_add_div hb1, Nat.div_eq_of_lt (Nat.lt_succ_self b),
        Nat.mul_add_mod, Nat.mod_eq_of_lt (Nat.lt_succ_self b)]
    simp

theorem grid_rowmajor_witness :
    (1 ≤ 2 ∧ 1 ≤ 3) ∧
    ((grid 2 3).length = 2 * 3 ∧
     (grid 2 3).Nodup ∧
     (grid 2 3).get? 0 = some (0, 0) ∧
     (grid 2 3).get? (2 * 3 - 1) = some (2 - 1, 3 - 1) ∧
     ∀ i < 2 * 3, (grid 2 3).get? i = some (i / 3, i % 3)) :=
  ⟨⟨by decide, by decide⟩, grid_rowmajor 2 3 (by decide) (by decide)⟩

/-- Model of the dict update unit_matches[bmu].append(data_idx): append i to
the value of the first entry whose key equals b; a missing key is a KeyError,
modelled as none. -/
def dictAppend : List (ℕ × List ℕ) → ℕ → ℕ → Option (List (ℕ × List ℕ))
  | [], _, _ => none
  | (k, v) :: rest, b, i =>
    if k = b then some ((k, v ++ [i]) :: rest)
    else (dictAppend rest b i).map (fun t => (k, v) :: t)

/-- Model of dict lookup by key. -/
def dictGet : List (ℕ × List ℕ) → ℕ → Option (List ℕ)
  | [], _ => none
  | (k, v) :: rest, u => if u = k then some v else dictGet rest u

/-- Model of the loop: for data_idx, bmu in enumerate(bmu_idx), with the
enumeration starting at index i. -/
def distributeFrom : ℕ → List ℕ → List (ℕ × List ℕ) → Option (List (ℕ × List ℕ))
  | _, [], tbl => some tbl
  | i, b :: rest, tbl => (dictAppend tbl b i).bind (distributeFrom (i + 1) rest)

/-- Model of distribute: builds the dict with keys 0..n_units-1 in order (each
with an empty list), then appends each data index to the list of its best
matching unit. -/
def distribute (bmu_idx : List ℕ) (n_units : ℕ) : Option (List (ℕ × List ℕ)) :=
  distributeFrom 0 bmu_idx ((List.range n_units).map (fun i => (i, [])))

/-- Characterization following the claim wording: the positions at which u
occurs in l, in increasing order. -/
def specMatchPositions : List ℕ → ℕ → List ℕ
  | [], _ => []
  | b :: rest, u =>
    if b = u then 0 :: (specMatchPositions rest u).map (· + 1)
    else (specMatchPositions rest u).map (· + 1)

theorem specMatchPositions_mem (l : List ℕ) (u : ℕ) :
    ∀ j, j ∈ specMatchPositions l u ↔ l.get? j = some u := by
  induction l with
  | nil => intro j; simp [specMatchPositions]
  | cons b rest ih =>
    intro j
    cases j with
    | zero =>
      by_cases hb : b = u
      · simp [specMatchPositions, hb]
      · simp [specMatchPositions, hb]
    | succ j =>
      by_cases hb : b = u
      · simp [specMatchPositions, hb, ih j]
      · simp [specMatchPositions, hb, ih j]

theorem specMatchPositions_sorted (l : List ℕ) (u : ℕ) :
    (specMatchPositions l u).Pairwise (· < ·) := by
  induction l with
  | nil => simp [specMatchPositions]
  | cons b rest ih =>
    have hmap : ((specMatchPositions rest u).map (· + 1)).Pairwise (· < ·) :=
      (List.pairwise_map).mpr (ih.imp (fun h => by omega))
    by_cases hb : b = u
    · simp only [specMatchPositions, if_pos hb]
      refine List.Pairwise.cons ?_ hmap
      intro a ha
      obtain ⟨x, _, rfl⟩ := List.mem_map.mp ha
      omega
    · simpa [specMatchPositions, hb] using hmap

theorem map_shift (mp : List ℕ) (i : ℕ) :
    (mp.map (· + 1)).map (· + i) = mp.map (· + (i + 1)) := by
  rw [List.map_map]
  refine List.map_congr_left ?_
  intro a _
  simp only [Function.comp_apply]
  omega

theorem dictAppend_ok (tbl : List (ℕ × List ℕ)) (b i : ℕ)
    (hb : b ∈ tbl.map Prod.fst) :
    ∃ tbl2, dictAppend tbl b i = some tbl2 ∧
      tbl2.map Prod.fst = tbl.map Prod.fst ∧
      ∀ u, dictGet tbl2 u =
        if u = b then (dictGet tbl u).map (fun v => v ++ [i])
        else dictGet tbl u := by
  induction tbl with
  | nil => simp at hb
  | cons p rest ih =>
    obtain ⟨k, v⟩ := p
    by_cases hk : k = b
    · refine ⟨(k, v ++ [i]) :: rest, by simp [dictAppend, hk], by simp, ?_⟩
      intro u
      by_cases hu : u = k
      · simp [dictGet, hu, hk]
      · have hub : u ≠ b := by rw [← hk]; exact hu
        simp [dictGet, hu, hub]
    · have hb2 : b ∈ rest.map Prod.fst := by
        simp only [List.map_cons, List.mem_cons] at hb
        rcases hb with h | h
        · exact absurd h.symm hk
        · exact h
      obtain ⟨tbl2, h1, h2, h3⟩ := ih hb2
      refine ⟨(k, v) :: tbl2, ?_, by simpa using h2, ?_⟩
      · simp [dictAppend, hk, h1]
      · intro u
        by_cases hu : u = k
        · have hub : u ≠ b := by rw [hu]; exact hk
          simp [dictGet, hu, hub, hk]
        · simpa [dictGet, hu] using h3 u

theorem distributeFrom_ok (l : List ℕ) :
    ∀ (i : ℕ) (tbl : List (ℕ × List ℕ)) (n : ℕ),
      tbl.map Prod.fst = List.range n → (∀ b ∈ l, b < n) →
      ∃ tbl2, distributeFrom i l tbl = some tbl2 ∧
        tbl2.map Prod.fst = List.range n ∧
        ∀ u, dictGet tbl2 u =
          (dictGet tbl u).map (fun v => v ++ (specMatchPositions l u).map (· + i)) := by
  induction l with
  | nil =>
    intro i tbl n hkeys _
    refine ⟨tbl, rfl, hkeys, fun u => ?_⟩
    cases h : dictGet tbl u <;> simp [specMatchPositions, h]
  | cons b rest ih =>
    intro i tbl n hkeys hlt
    have hb : b ∈ tbl.map Prod.fst := by
      rw [hkeys]
      exact List.mem_range.mpr (hlt b (List.mem_cons_self b rest))
    obtain ⟨tbl1, h1, hk1, hg1⟩ := dictAppend_ok tbl b i hb
    obtain ⟨tbl2, h2, hk2, hg2⟩ :=
      ih (i + 1) tbl1 n (hk1.trans hkeys) (fun x hx => hlt x (List.mem_cons_of_mem _ hx))
    refine ⟨tbl2, ?_, hk2, ?_⟩
    · simp [distributeFrom, h1, h2]
    · intro u
      rw [hg2 u, hg1 u]
      by_cases hu : u = b
      · rw [if_pos hu, hu]
        have hmp : specMatchPositions (b :: rest) b
            = 0 :: (specMatchPositions rest b).map (· + 1) := by
          simp [specMatchPositions]
        rw [hmp]
        cases h : dictGet tbl b
        · simp
        · simp only [Option.map_some', List.map_cons, map_shift, Nat.zero_add]
          congr 1
          conv_rhs => rw [List.append_cons]
      · have hbu : b ≠ u := fun h => hu h.symm
        have hmp : specMatchPositions (b :: rest) u
            = (specMatchPositions rest u).map (· + 1) := by
          simp [specMatchPositions, hbu]
        rw [if_neg hu, hmp]
        cases h : dictGet tbl u
        · simp
        · simp only [Option.map_some', map_shift]

theorem dictGet_range' : ∀ (n s u : ℕ), s ≤ u → u < s + n →
    dictGet ((List.range' s n).map (fun j => (j, ([] : List ℕ)))) u = some [] := by
  intro n
  induction n with
  | zero => intro s u h1 h2; omega
  | succ k ih =>
    intro s u h1 h2
    rw [List.range'_succ]
    by_cases hus : u = s
    · simp [dictGet, hus]
    · simp only [List.map_cons, dictGet, if_neg hus]
      exact ih (s + 1) u (by omega) (by omega)

theorem dictGet_init (n u : ℕ) (hu : u < n) :
    dictGet ((List.range n).map (fun j => (j, ([] : List ℕ)))) u = some [] := by
  rw [List.range_eq_range']
  exact dictGet_range' n 0 u (Nat.zero_le u) (by omega)

/-- C7: distribute(bmu_idx, n_units) returns a mapping with exactly n_units
keys, 0 through n_units-1; the value of each key u is the list of positions at
which u occurs in bmu_idx, in increasing order, and units that never occur map
to the empty list. -/
theorem distribute_spec (bmu_idx : List ℕ) (n_units : ℕ)
    (h : ∀ b ∈ bmu_idx, b < n_units) :
    ∃ tbl, distribute bmu_idx n_units = some tbl ∧
      tbl.map Prod.fst = List.range n_units ∧
      ∀ u < n_units,
        dictGet tbl u = some (specMatchPositions bmu_idx u) ∧
        (specMatchPositions bmu_idx u).Pairwise (· < ·) ∧
        ∀ j, j ∈ specMatchPositions bmu_idx u ↔ bmu_idx.get? j = some u := by
  have hkeys : ((List.range n_units).map (fun j => (j, ([] : List ℕ)))).map Prod.fst
      = List.range n_units := by
    rw [List.map_map]
    have hcomp : (Prod.fst ∘ fun j => (j, ([] : List ℕ))) = (id : ℕ → ℕ) := rfl
    rw [hcomp, List.map_id]
  obtain ⟨tbl, h1, h2, h3⟩ := distributeFrom_ok bmu_idx 0 _ n_units hkeys h
  refine ⟨tbl, h1, h2, ?_⟩
  intro u hu
  have hinit := dictGet_init n_units u hu
  have hval := h3 u
  rw [hinit] at hval
  simp only [Option.map_some', List.nil_append] at hval
  refine ⟨?_, specMatchPositions_sorted _ _, specMatchPositions_mem _ _⟩
  rw [hval]
  congr 1
  have hzero : ((· + 0) : ℕ → ℕ) = id := by
    funext a
    simp
  rw [hzero, List.map_id]

theorem distribute_spec_witness :
    (∀ b ∈ [0, 2, 0], b < 3) ∧
    (∃ tbl, distribute [0, 2, 0] 3 = some tbl ∧
      tbl.map Prod.fst = List.range 3 ∧
      ∀ u < 3,
        dictGet tbl u = some (specMatchPositions [0, 2, 0] u) ∧
        (specMatchPositions [0, 2, 0] u).Pairwise (· < ·) ∧
        ∀ j, j ∈ specMatchPositions [0, 2, 0] u ↔ [0, 2, 0].get? j = some u) :=
  ⟨by decide, distribute_spec [0, 2, 0] 3 (by decide)⟩

/-- Model of arr.max() on a 1-D slice: fold of max over the elements (numpy
raises on an empty slice; the empty case value 0 is never reached under the
claims, which require a nonconstant slice). -/
def npmax : List ℚ → ℚ
  | [] => 0
  | x :: xs => xs.foldl max x

/-- Model of arr.min() on a 1-D slice. -/
def npmin : List ℚ → ℚ
  | [] => 0
  | x :: xs => xs.foldl min x

/-- Model of scale on a 1-D slice along the chosen axis: the source computes
the slice max and min with keepdims and applies the same affine map to every
element of the slice. -/
def scale (arr : List ℚ) (new_min new_max : ℚ) : List ℚ :=
  let xmax := npmax arr
  let xmin := npmin arr
  arr.map (fun x => (x - xmin) / (xmax - xmin) * (new_max - new_min) + new_min)

theorem foldl_max_init_le (l : List ℚ) : ∀ a : ℚ, a ≤ l.foldl max a := by
  induction l with
  | nil => intro a; simp
  | cons x xs ih =>
    intro a
    rw [List.foldl_cons]
    exact le_trans (le_max_left a x) (ih (max a x))

theorem le_foldl_max (l : List ℚ) : ∀ (a x : ℚ), x ∈ l → x ≤ l.foldl max a := by
  induction l with
  | nil => intro a x hx; simp at hx
  | cons y ys ih =>
    intro a x hx
    rw [List.foldl_cons]
    rcases List.mem_cons.mp hx with rfl | hx
    · exact le_trans (le_max_right a x) (foldl_max_init_le ys (max a x))
    · exact ih (max a y) x hx

theorem foldl_max_mem (l : List ℚ) : ∀ a : ℚ, l.foldl max a = a ∨ l.foldl max a ∈ l := by
  induction l with
  | nil => intro a; left; rfl
  | cons y ys ih =>
    intro a
    rw [List.foldl_cons]
    rcases ih (max a y) with h | h
    · rcases max_cases a y with ⟨h2, _⟩ | ⟨h2, _⟩
      · left; rw [h, h2]
      · right; rw [h, h2]; exact List.mem_cons_self y ys
    · right; exact List.mem_cons_of_mem y h

theorem foldl_min_init_ge (l : List ℚ) : ∀ a : ℚ, l.foldl min a ≤ a := by
  induction l with
  | nil => intro a; simp
  | cons x xs ih =>
    intro a
    rw [List.foldl_cons]
    exact le_trans (ih (min a x)) (min_le_left a x)

theorem foldl_min_le (l : List ℚ) : ∀ (a x : ℚ), x ∈ l → l.foldl min a ≤ x := by
  induction l with
  | nil => intro a x hx; simp at hx
  | cons y ys ih =>
    intro a x hx
    rw [List.foldl_cons]
    rcases List.mem_cons.mp hx with rfl | hx
    · exact le_trans (foldl_min_init_ge ys (min a x)) (min_le_right a x)
    · exact ih (min a y) x hx

theorem foldl_min_mem (l : List ℚ) : ∀ a : ℚ, l.foldl min a = a ∨ l.foldl min a ∈ l := by
  induction l with
  | nil => intro a; left; rfl
  | cons y ys ih =>
    intro a
    rw [List.foldl_cons]
    rcases ih (min a y) with h | h
    · rcases min_cases a y with ⟨h2, _⟩ | ⟨h2, _⟩
      · left; rw [h, h2]
      · right; rw [h, h2]; exact List.mem_cons_self y ys
    · right; exact List.mem_cons_of_mem y h

theorem npmax_mem (arr : List ℚ) (h : arr ≠ []) : npmax arr ∈ arr := by
  cases arr with
  | nil => exact absurd rfl h
  | cons x xs =>
    show xs.foldl max x ∈ x :: xs
    rcases foldl_max_mem xs x with h2 | h2
    · rw [h2]; exact List.mem_cons_self x xs
    · exact List.mem_cons_of_mem x h2

theorem npmin_mem (arr : List ℚ) (h : arr ≠ []) : npmin arr ∈ arr := by
  cases arr with
  | nil => exact absurd rfl h
  | cons x xs =>
    show xs.foldl min x ∈ x :: xs
    rcases foldl_min_mem xs x with h2 | h2
    · rw [h2]; exact List.mem_cons_self x xs
    · exact List.mem_cons_of_mem x h2

/-- C8: for a nonconstant 1-D slice (max strictly above min), scale maps every
element by the affine map sending the slice min to new_min and the slice max to
new_max, with all other values interpolated linearly; the extreme values are
attained on the slice. -/
theorem scale_spec (arr : List ℚ) (new_min new_max : ℚ)
    (h : npmin arr < npmax arr) :
    (scale arr new_min new_max).length = arr.length ∧
    (∀ k x, arr.get? k = some x →
      (scale arr new_min new_max).get? k = some
        ((x - npmin arr) / (npmax arr - npmin arr) * (new_max - new_min) + new_min)) ∧
    (∀ k x, arr.get? k = some x → x = npmin arr →
      (scale arr new_min new_max).get? k = some new_min) ∧
    (∀ k x, arr.get? k = some x → x = npmax arr →
      (scale arr new_min new_max).get? k = some new_max) ∧
    npmin arr ∈ arr ∧ npmax arr ∈ arr := by
  have hne : arr ≠ [] := by
    intro hnil
    rw [hnil] at h
    exact absurd h (by norm_num [npmin, npmax])
  have hd : npmax arr - npmin arr ≠ 0 := sub_ne_zero.mpr (ne_of_gt h)
  have hget : ∀ k x, arr.get? k = some x →
      (scale arr new_min new_max).get? k = some
        ((x - npmin arr) / (npmax arr - npmin arr) * (new_max - new_min) + new_min) := by
    intro k x hx
    unfold scale
    rw [List.get?_map, hx]
    rfl
  refine ⟨by simp [scale], hget, ?_, ?_, npmin_mem arr hne, npmax_mem arr hne⟩
  · intro k x hx hxmin
    rw [hget k x hx, hxmin]
    congr 1
    rw [sub_self, zero_div, zero_mul, zero_add]
  · intro k x hx hxmax
    rw [hget k x hx, hxmax]
    congr 1
    rw [div_self hd, one_mul, sub_add_cancel]

theorem scale_spec_witness :
    npmin [1, 2, 3, 4] < npmax [1, 2, 3, 4] ∧
    ((scale [1, 2, 3, 4] 0 1).length = ([1, 2, 3, 4] : List ℚ).length ∧
     (∀ k x, ([1, 2, 3, 4] : List ℚ).get? k = some x →
       (scale [1, 2, 3, 4] 0 1).get? k = some
         ((x - npmin [1, 2, 3, 4]) / (npmax [1, 2, 3, 4] - npmin [1, 2, 3, 4])
           * (1 - 0) + 0)) ∧
     (∀ k x, ([1, 2, 3, 4] : List ℚ).get? k = some x → x = npmin [1, 2, 3, 4] →
       (scale [1, 2, 3, 4] 0 1).get? k = some 0) ∧
     (∀ k x, ([1, 2, 3, 4] : List ℚ).get? k = some x → x = npmax [1, 2, 3, 4] →
       (scale [1, 2, 3, 4] 0 1).get? k = some 1) ∧
     npmin [1, 2, 3, 4] ∈ ([1, 2, 3, 4] : List ℚ) ∧
     npmax [1, 2, 3, 4] ∈ ([1, 2, 3, 4] : List ℚ)) :=
  ⟨by decide, scale_spec [1, 2, 3, 4] 0 1 (by decide)⟩

/-- Model of a Python numeric argument that is either an int or a float; the
source validates step with isinstance(step, int). -/
inductive PyNum where
  | int : ℤ → PyNum
  | float : ℚ → PyNum
deriving DecidableEq

/-- Numeric value of a PyNum. -/
def PyNum.toRat : PyNum → ℚ
  | .int n => (n : ℚ)
  | .float q => q

/-- Model of isinstance(step, int). -/
def PyNum.isInt : PyNum → Bool
  | .int _ => true
  | .float _ => false

/-- Number of loop iterations range(step) once step passed validation. -/
def PyNum.steps : PyNum → ℕ
  | .int n => n.toNat
  | .float _ => 0

/-- Model of a Python generator object: invoking a generator function executes
none of its body; the body (validation included) runs only when the generator
is iterated, modelled by run. -/
structure PyGen (τ : Type) where
  run : Except String (List τ)

/-- Model of the body of decrease_linear(start, step, stop): after validation,
yield coef * stp + start for stp in range(step), coef = (stop-start)/(step-1);
for step equal to 1 yield only start. -/
def decrease_linear (start : ℚ) (step : PyNum) (stop : ℚ) : PyGen ℚ :=
  ⟨if step.toRat < 1 ∨ step.isInt = false then
      Except.error "Param step must be int >= 1."
    else if step.toRat = 1 then Except.ok [start]
    else
      Except.ok ((List.range step.steps).map
        (fun stp : ℕ => (stop - start) / (step.toRat - 1) * (stp : ℚ) + start))⟩

/-- Model of the body of decrease_expo, with np.log and np.exp injected as the
trusted numeric collaborators. -/
def decrease_expo (log exp : ℚ → ℚ) (start : ℚ) (step : PyNum) (stop : ℚ) :
    PyGen ℚ :=
  ⟨if step.toRat < 1 ∨ step.isInt = false then
      Except.error "Param step must be int >= 1."
    else if step.toRat = 1 then Except.ok [start]
    else
      Except.ok ((List.range step.steps).map
        (fun stp : ℕ => start * exp (log (stop / start) / (step.toRat - 1) * (stp : ℚ))))⟩

/-- Calling a Python generator function always succeeds and returns the
generator object; no body code, validation included, runs at the call. -/
def decrease_linear_call (start : ℚ) (step : PyNum) (stop : ℚ) :
    Except String (PyGen ℚ) :=
  Except.ok (decrease_linear start step stop)

/-- Calling decrease_expo likewise returns the generator object directly. -/
def decrease_expo_call (log exp : ℚ → ℚ) (start : ℚ) (step : PyNum) (stop : ℚ) :
    Except String (PyGen ℚ) :=
  Except.ok (decrease_expo log exp start step stop)

/-- C2: for an integer step n at least 2, decrease_linear yields exactly n
values forming the arithmetic progression from start to stop inclusive with
common difference (stop-start)/(n-1); for step equal to 1 it yields only start
regardless of stop. -/
theorem decrease_linear_progression (start stop : ℚ) (n : ℕ) (hn : 2 ≤ n) :
    (∃ l, (decrease_linear start (PyNum.int n) stop).run = Except.ok l ∧
      l.length = n ∧
      (∀ k < n, l.get? k = some (start + (k : ℚ) * ((stop - start) / ((n : ℚ) - 1)))) ∧
      l.get? 0 = some start ∧
      l.get? (n - 1) = some stop) ∧
    (decrease_linear start (PyNum.int 1) stop).run = Except.ok [start] := by
  constructor
  · have hlt : ¬ ((PyNum.int (n : ℤ)).toRat < 1 ∨ (PyNum.int (n : ℤ)).isInt = false) := by
      rintro (h1 | h2)
      · have h3 : ((n : ℤ) : ℚ) < 1 := h1
        have h4 : (n : ℚ) < 1 := by push_cast at h3; exact_mod_cast h3
        have h5 : n < 1 := by exact_mod_cast h4
        omega
      · simp [PyNum.isInt] at h2
    have hne1 : ¬ (PyNum.int (n : ℤ)).toRat = 1 := by
      show ¬ ((n : ℤ) : ℚ) = 1
      push_cast
      intro hc
      have : (n : ℚ) = 1 := by exact_mod_cast hc
      have : n = 1 := by exact_mod_cast this
      omega
    have hrun : (decrease_linear start (PyNum.int n) stop).run
        = Except.ok ((List.range n).map
            (fun stp : ℕ => (stop - start) / (((n : ℤ) : ℚ) - 1) * (stp : ℚ) + start)) := by
      unfold decrease_linear
      rw [if_neg hlt, if_neg hne1]
      simp [PyNum.steps, PyNum.toRat]
    have hcast : (((n : ℤ) : ℚ)) = (n : ℚ) := by push_cast; rfl
    have hget : ∀ k < n,
        ((List.range n).map
          (fun stp : ℕ => (stop - start) / (((n : ℤ) : ℚ) - 1) * (stp : ℚ) + start)).get? k
        = some (start + (k : ℚ) * ((stop - start) / ((n : ℚ) - 1))) := by
      intro k hk
      rw [List.get?_map, List.get?_range hk]
      simp only [Option.map_some']
      congr 1
      rw [hcast]
      ring
    refine ⟨_, hrun, by simp, hget, ?_, ?_⟩
    · have := hget 0 (by omega)
      rw [this]
      norm_num
    · have hlt2 : n - 1 < n := by omega
      rw [hget (n - 1) hlt2]
      have hn1 : ((n - 1 : ℕ) : ℚ) = (n : ℚ) - 1 := by
        have : (1 : ℕ) ≤ n := by omega
        push_cast [this]
        ring
      have hne : (n : ℚ) - 1 ≠ 0 := by
        intro hc
        have h1 : (n : ℚ) = 1 := by linarith
        have : n = 1 := by exact_mod_cast h1
        omega
      rw [hn1]
      congr 1
      rw [mul_comm, div_mul_cancel₀ _ hne]
      ring
  · unfold decrease_linear
    norm_num [PyNum.toRat, PyNum.isInt]

theorem decrease_linear_progression_witness :
    2 ≤ 4 ∧
    ((∃ l, (decrease_linear 5 (PyNum.int 4) 1).run = Except.ok l ∧
      l.length = 4 ∧
      (∀ k < 4, l.get? k = some (5 + (k : ℚ) * ((1 - 5) / ((4 : ℚ) - 1)))) ∧
      l.get? 0 = some 5 ∧
      l.get? (4 - 1) = some 1) ∧
    (decrease_linear 5 (PyNum.int 1) 1).run = Except.ok [5]) :=
  ⟨by decide, decrease_linear_progression 5 1 4 (by decide)⟩

/-- C3 counterexample: with step 0 the invocation of decrease_linear and of
decrease_expo raises nothing, returning a generator object; the ValueError
appears only when the returned generator is iterated. -/
theorem decrease_call_no_immediate_error :
    decrease_linear_call 5 (PyNum.int 0) 1
      = Except.ok (decrease_linear 5 (PyNum.int 0) 1) ∧
    (decrease_linear 5 (PyNum.int 0) 1).run
      = Except.error "Param step must be int >= 1." ∧
    decrease_expo_call (fun q => q) (fun q => q) 5 (PyNum.int 0) 1
      = Except.ok (decrease_expo (fun q => q) (fun q => q) 5 (PyNum.int 0) 1) ∧
    (decrease_expo (fun q => q) (fun q => q) 5 (PyNum.int 0) 1).run
      = Except.error "Param step must be int >= 1." := by
  refine ⟨rfl, ?_, rfl, ?_⟩
  · unfold decrease_linear
    norm_num [PyNum.toRat]
  · unfold decrease_expo
    norm_num [PyNum.toRat]

/-- C3 (amended): for every start and stop, both schedule generators fail with
ValueError exactly as validated whenever step is not an integer at least 1,
but the failure is raised on the first iteration of the returned generator,
not at the point of invocation; the invocation itself always returns a
generator object without raising. -/
theorem decrease_step_validation (log exp : ℚ → ℚ) (start stop : ℚ) (step : PyNum)
    (h : ¬ ∃ n : ℤ, step = PyNum.int n ∧ 1 ≤ n) :
    (decrease_linear start step stop).run
      = Except.error "Param step must be int >= 1." ∧
    (decrease_expo log exp start step stop).run
      = Except.error "Param step must be int >= 1." ∧
    decrease_linear_call start step stop
      = Except.ok (decrease_linear start step stop) ∧
    decrease_expo_call log exp start step stop
      = Except.ok (decrease_expo log exp start step stop) := by
  have hcond : step.toRat < 1 ∨ step.isInt = false := by
    cases step with
    | int n =>
      left
      have hn : ¬ 1 ≤ n := fun hle => h ⟨n, rfl, hle⟩
      have hn2 : n < 1 := by omega
      show ((n : ℚ)) < 1
      exact_mod_cast hn2
    | float q => right; rfl
  refine ⟨?_, ?_, rfl, rfl⟩
  · unfold decrease_linear
    rw [if_pos hcond]
  · unfold decrease_expo
    rw [if_pos hcond]

theorem decrease_step_validation_witness :
    (¬ ∃ n : ℤ, PyNum.float (5 / 2) = PyNum.int n ∧ 1 ≤ n) ∧
    ((decrease_linear 3 (PyNum.float (5 / 2)) 1).run
      = Except.error "Param step must be int >= 1." ∧
    (decrease_expo (fun q => q) (fun q => q) 3 (PyNum.float (5 / 2)) 1).run
      = Except.error "Param step must be int >= 1." ∧
    decrease_linear_call 3 (PyNum.float (5 / 2)) 1
      = Except.ok (decrease_linear 3 (PyNum.float (5 / 2)) 1) ∧
    decrease_expo_call (fun q => q) (fun q => q) 3 (PyNum.float (5 / 2)) 1
      = Except.ok (decrease_expo (fun q => q) (fun q => q) 3 (PyNum.float (5 / 2)) 1)) := by
  have h : ¬ ∃ n : ℤ, PyNum.float (5 / 2) = PyNum.int n ∧ 1 ≤ n := by
    rintro ⟨n, hn, -⟩
    exact PyNum.noConfusion hn
  exact ⟨h, decrease_step_validation (fun q => q) (fun q => q) 3 1 (PyNum.float (5 / 2)) h⟩

/-- Model of the minimum of one column of the distance matrix (np.min along
axis 0); none on an empty axis, on which numpy raises. -/
def npminCol {α : Type} [LinearOrder α] : List α → Option α
  | [] => none
  | d :: rest =>
    some (match npminCol rest with
      | none => d
      | some m => min d m)

/-- Model of np.argmin along one column of the distance matrix: numpy returns
the index of the first occurrence of the minimal value. -/
def npargmin {α : Type} [LinearOrder α] : List α → ℕ
  | [] => 0
  | d :: rest =>
    match npminCol rest with
    | none => 0
    | some m => if d ≤ m then 0 else npargmin rest + 1

/-- Model of best_match: checks that weights is two-dimensional (an empty list
is the 1-D empty array, rejected by the ndim check) and that the feature
dimensions of weights and inp match, then returns per input sample the argmin
and the min over the units of the pairwise distances under metric. -/
def best_match {α : Type} [LinearOrder α] (weights inp : List (List ℚ))
    (metric : List ℚ → List ℚ → α) : Except String (List ℕ × List α) :=
  match weights with
  | [] => Except.error "Array weights has to have exactly two dimensions."
  | w :: ws =>
    if w.length ≠ (inp.headD []).length then
      Except.error "Feature dimensions have to match exactly."
    else
      Except.ok
        (inp.map (fun x => npargmin ((w :: ws).map (fun wu => metric wu x))),
         inp.map (fun x => (ws.map (fun wu => metric wu x)).foldl min (metric w x)))

/-- Model of the scipy euclidean metric: square root of the sum of squared
coordinate differences. -/
noncomputable def euclidean (x y : List ℚ) : ℝ :=
  Real.sqrt (((x.zip y).map (fun p => ((p.1 : ℝ) - (p.2 : ℝ)) ^ 2)).sum)

theorem foldl_min_pull {α : Type} [LinearOrder α] (t : List α) :
    ∀ a b : α, min a (t.foldl min b) = t.foldl min (min a b) := by
  induction t with
  | nil => intro a b; rfl
  | cons c t ih =>
    intro a b
    rw [List.foldl_cons, List.foldl_cons, ih a (min b c), ← min_assoc]

theorem npminCol_eq_foldl {α : Type} [LinearOrder α] :
    ∀ (t : List α) (a : α), npminCol (a :: t) = some (t.foldl min a) := by
  intro t
  induction t with
  | nil => intro a; rfl
  | cons b t ih =>
    intro a
    show some (match npminCol (b :: t) with | none => a | some m => min a m)
        = some ((b :: t).foldl min a)
    rw [ih b]
    show some (min a (t.foldl min b)) = some (t.foldl min (min a b))
    congr 1
    exact foldl_min_pull t a b

theorem npargmin_spec {α : Type} [LinearOrder α] (l : List α) (hne : l ≠ []) :
    ∃ m, npminCol l = some m ∧
      l.get? (npargmin l) = some m ∧
      (∀ u x, l.get? u = some x → m ≤ x) ∧
      (∀ u, u < npargmin l → ∀ x, l.get? u = some x → m < x) := by
  induction l with
  | nil => exact absurd rfl hne
  | cons d rest ih =>
    by_cases hr : rest = []
    · subst hr
      refine ⟨d, rfl, rfl, ?_, ?_⟩
      · intro u x hx
        cases u with
        | zero =>
          have hxd : d = x := by simpa using hx
          exact le_of_eq hxd
        | succ u => simp at hx
      · intro u hu x hx
        have : npargmin [d] = 0 := rfl
        omega
    · obtain ⟨m, hm, hget, hle, hlt⟩ := ih hr
      by_cases hd : d ≤ m
      · have ha : npargmin (d :: rest) = 0 := by
          show (match npminCol rest with
            | none => 0
            | some m0 => if d ≤ m0 then 0 else npargmin rest + 1) = 0
          rw [hm]
          simp [hd]
        refine ⟨d, ?_, ?_, ?_, ?_⟩
        · show some (match npminCol rest with | none => d | some m0 => min d m0)
              = some d
          rw [hm]
          show some (min d m) = some d
          rw [min_eq_left hd]
        · rw [ha]
          rfl
        · intro u x hx
          cases u with
          | zero =>
            have hxd : d = x := by simpa using hx
            exact le_of_eq hxd
          | succ u =>
            have hx2 : rest.get? u = some x := by simpa using hx
            exact le_trans hd (hle u x hx2)
        · intro u hu x hx
          omega
      · have hmd : m < d := lt_of_not_le hd
        have ha : npargmin (d :: rest) = npargmin rest + 1 := by
          show (match npminCol rest with
            | none => 0
            | some m0 => if d ≤ m0 then 0 else npargmin rest + 1)
              = npargmin rest + 1
          rw [hm]
          simp [hd]
        refine ⟨m, ?_, ?_, ?_, ?_⟩
        · show some (match npminCol rest with | none => d | some m0 => min d m0)
              = some m
          rw [hm]
          show some (min d m) = some m
          rw [min_eq_right (le_of_lt hmd)]
        · rw [ha]
          simpa using hget
        · intro u x hx
          cases u with
          | zero =>
            have hxd : d = x := by simpa using hx
            exact le_of_lt (hxd ▸ hmd)
          | succ u =>
            have hx2 : rest.get? u = some x := by simpa using hx
            exact hle u x hx2
        · intro u hu x hx
          rw [ha] at hu
          cases u with
          | zero =>
            have hxd : d = x := by simpa using hx
            exact hxd ▸ hmd
          | succ u =>
            have hx2 : rest.get? u = some x := by simpa using hx
            exact hlt u (by omega) x hx2

/-- C1: for every 2-D weights array and input batch passing the feature check,
best_match returns parallel index and distance lists in input-sample order;
for each sample the returned index points at a unit of minimal distance, every
unit with a strictly smaller index has strictly greater distance (so the
lowest index wins exact ties), and the returned distance is that minimum; in
particular the euclidean spec example returns index 0 and distance 0. -/
theorem best_match_lowest_index :
    (∀ (α : Type) [LinearOrder α] (metric : List ℚ → List ℚ → α)
       (weights inp : List (List ℚ)),
      weights ≠ [] →
      (weights.headD []).length = (inp.headD []).length →
      ∃ idx err, best_match weights inp metric = Except.ok (idx, err) ∧
        idx.length = inp.length ∧ err.length = inp.length ∧
        ∀ s x, inp.get? s = some x →
          ∃ i m, idx.get? s = some i ∧ err.get? s = some m ∧
            (weights.map (fun wu => metric wu x)).get? i = some m ∧
            (∀ u y, (weights.map (fun wu => metric wu x)).get? u = some y → m ≤ y) ∧
            (∀ u, u < i → ∀ y,
              (weights.map (fun wu => metric wu x)).get? u = some y → m < y)) ∧
    best_match [[0, 0], [0, 0]] [[0, 0]] euclidean = Except.ok ([0], [0]) := by
  constructor
  · intro α inst metric weights inp hne hdim
    obtain ⟨w, ws, rfl⟩ : ∃ w ws, weights = w :: ws := by
      cases weights with
      | nil => exact absurd rfl hne
      | cons w ws => exact ⟨w, ws, rfl⟩
    · have hdim2 : ¬ w.length ≠ (inp.headD []).length := by
        simpa using hdim
      have hbm : best_match (w :: ws) inp metric = Except.ok
          (inp.map (fun x => npargmin ((w :: ws).map (fun wu => metric wu x))),
           inp.map (fun x => (ws.map (fun wu => metric wu x)).foldl min (metric w x))) := by
        simp only [best_match]
        rw [if_neg hdim2]
      refine ⟨_, _, hbm, by simp, by simp, ?_⟩
      · intro s x hx
        have hidx : (inp.map
            (fun x => npargmin ((w :: ws).map (fun wu => metric wu x)))).get? s
            = some (npargmin ((w :: ws).map (fun wu => metric wu x))) := by
          rw [List.get?_map, hx]
          rfl
        have herr : (inp.map
            (fun x => (ws.map (fun wu => metric wu x)).foldl min (metric w x))).get? s
            = some ((ws.map (fun wu => metric wu x)).foldl min (metric w x)) := by
          rw [List.get?_map, hx]
          rfl
        have hds : (w :: ws).map (fun wu => metric wu x)
            = metric w x :: ws.map (fun wu => metric wu x) := rfl
        obtain ⟨m, hm, hget, hle, hlt⟩ :=
          npargmin_spec ((w :: ws).map (fun wu => metric wu x)) (by simp)
        have hmfold : npminCol ((w :: ws).map (fun wu => metric wu x))
            = some ((ws.map (fun wu => metric wu x)).foldl min (metric w x)) := by
          rw [hds]
          exact npminCol_eq_foldl _ _
        have hmeq : m = (ws.map (fun wu => metric wu x)).foldl min (metric w x) := by
          rw [hm] at hmfold
          exact Option.some.inj hmfold
        exact ⟨npargmin ((w :: ws).map (fun wu => metric wu x)), m, hidx,
          by rw [herr, hmeq], hget, hle, hlt⟩
  · have he : euclidean [0, 0] [0, 0] = 0 := by
      unfold euclidean
      norm_num
    have hcheck : ¬ ([(0 : ℚ), 0].length ≠ (([[(0 : ℚ), 0]].headD []).length)) := by
      norm_num
    simp only [best_match]
    rw [if_neg hcheck]
    simp only [List.map_cons, List.map_nil, he]
    have hargmin : npargmin [(0 : ℝ), 0] = 0 := by
      unfold npargmin
      norm_num [npminCol]
    rw [hargmin]
    norm_num

theorem best_match_lowest_index_witness :
    ([[(0 : ℚ)], [1]] : List (List ℚ)) ≠ [] ∧
    (([[(0 : ℚ)], [1]] : List (List ℚ)).headD []).length
      = (([[(2 : ℚ)]] : List (List ℚ)).headD []).length ∧
    ∃ idx err, best_match [[(0 : ℚ)], [1]] [[(2 : ℚ)]]
        (fun x y => ((x.zip y).map (fun p => (p.1 - p.2) ^ 2)).sum)
      = Except.ok (idx, err) ∧ idx.length = 1 ∧ err.length = 1 := by
  refine ⟨by decide, by decide, ?_⟩
  obtain ⟨idx, err, h1, h2, h3, -⟩ :=
    best_match_lowest_index.1 ℚ
      (fun x y => ((x.zip y).map (fun p => (p.1 - p.2) ^ 2)).sum)
      [[(0 : ℚ)], [1]] [[(2 : ℚ)]] (by decide) (by decide)
  exact ⟨idx, err, h1, by simpa using h2, by simpa using h3⟩

/-- Dimensions of a SOM: rows, columns, features. -/
structure SomDims where
  n_rows : ℕ
  n_cols : ℕ
  n_feats : ℕ

/-- Model of np.random.randint(1, 10, (n_states, n_states)) with the random
integer draws injected as a stream indexed in row-major draw order. -/
def stm_alpha (randint : ℕ → ℤ) (n_states : ℕ) : List (List ℤ) :=
  (List.range n_states).map
    (fun i => (List.range n_states).map (fun j => randint (i * n_states + j)))

/-- Model of sample_stm: validates that n_features is a perfect square (the
float square-root integrality test of the source, modelled exactly for
integer inputs), draws the random concentration matrix alpha, samples n_units
Dirichlet rows per state via the injected scipy collaborator, and hstacks the
per-state blocks, so that row u of the result is the concatenation of row u of
every block.  The data argument is accepted but never read. -/
def sample_stm (randint : ℕ → ℤ) (dirichlet : List ℚ → ℕ → List (List ℚ))
    (dims : SomDims) (data : Option (List (List ℚ))) :
    Except String (List (List ℚ)) :=
  if Nat.sqrt dims.n_feats * Nat.sqrt dims.n_feats ≠ dims.n_feats then
    Except.error "Weight vector is not reshapeable to square matrix."
  else
    let n_states := Nat.sqrt dims.n_feats
    let n_units := dims.n_rows * dims.n_cols
    let alpha := stm_alpha randint n_states
    let blocks := alpha.map (fun a => dirichlet (a.map (fun z : ℤ => (z : ℚ))) n_units)
    Except.ok ((List.range n_units).map
      (fun u => (blocks.map (fun b => b.getD u [])).flatten))

/-- Model of sample_hist: n_units draws from the symmetric Dirichlet over
n_features categories with all concentrations one; the data argument is
accepted but never read. -/
def sample_hist (dirichlet : List ℚ → ℕ → List (List ℚ))
    (dims : SomDims) (data : Option (List (List ℚ))) : List (List ℚ) :=
  dirichlet (List.replicate dims.n_feats 1) (dims.n_rows * dims.n_cols)

/-- C5: the code passes the raw random concentration matrix to the Dirichlet
sampler with no diagonal reinforcement.  With draws 1,2,2,1 on a 1-by-1 map
with 4 features, the concentration row used for state 0 is (1, 2): its
diagonal entry 1 is strictly below the off-diagonal entry 2, and a Dirichlet
collaborator that echoes its concentration vector exposes exactly the raw
draws in the output, contradicting the documented doubling of the diagonal. -/
theorem sample_stm_alpha_unboosted :
    stm_alpha (fun k => ([1, 2, 2, 1] : List ℤ).getD k 0) 2 = [[1, 2], [2, 1]] ∧
    ((stm_alpha (fun k => ([1, 2, 2, 1] : List ℤ).getD k 0) 2).getD 0 []).getD 0 0
      < ((stm_alpha (fun k => ([1, 2, 2, 1] : List ℤ).getD k 0) 2).getD 0 []).getD 1 0 ∧
    sample_stm (fun k => ([1, 2, 2, 1] : List ℤ).getD k 0)
      (fun a m => List.replicate m a) ⟨1, 1, 4⟩ none
      = Except.ok [[1, 2, 2, 1]] := by
  have h4 : Nat.sqrt 4 = 2 := by
    have h44 : (4 : ℕ) = 2 * 2 := rfl
    rw [h44, Nat.sqrt_eq]
  refine ⟨by decide, by decide, ?_⟩
  simp only [sample_stm, h4]
  norm_num
  decide

/-- C10: the outputs of sample_stm and sample_hist do not depend on the data
argument: with the random draw stream and the Dirichlet collaborator fixed,
any two data arguments produce identical outputs. -/
theorem sample_data_independent
    (randint : ℕ → ℤ) (dirichlet : List ℚ → ℕ → List (List ℚ)) (dims : SomDims)
    (data1 data2 : Option (List (List ℚ))) :
    sample_stm randint dirichlet dims data1 = sample_stm randint dirichlet dims data2 ∧
    sample_hist dirichlet dims data1 = sample_hist dirichlet dims data2 :=
  ⟨rfl, rfl⟩

theorem getD_mem {β : Type} (l : List β) (n : ℕ) (d : β) (h : n < l.length) :
    l.getD n d ∈ l := by
  rw [List.getD_eq_get?, List.get?_eq_get h]
  simp only [Option.getD_some]
  exact List.get_mem l n h

theorem length_join_uniform (L : List (List ℚ)) (N : ℕ)
    (hL : ∀ b ∈ L, b.length = N) : L.flatten.length = L.length * N := by
  induction L with
  | nil => simp
  | cons b L ih =>
    simp only [List.flatten_cons, List.length_append, List.length_cons]
    rw [hL b (List.mem_cons_self b L),
        ih (fun x hx => hL x (List.mem_cons_of_mem _ hx))]
    ring

theorem join_block (N : ℕ) :
    ∀ L : List (List ℚ), (∀ b ∈ L, b.length = N) →
      ∀ s < L.length, ((L.flatten).drop (s * N)).take N = L.getD s [] := by
  intro L
  induction L with
  | nil =>
    intro _ s hs
    simp at hs
  | cons b L ih =>
    intro hL s hs
    have hb : b.length = N := hL b (List.mem_cons_self b L)
    cases s with
    | zero =>
      simp only [List.flatten_cons, Nat.zero_mul, List.drop_zero]
      rw [← hb, List.take_left]
      rfl
    | succ s =>
      have hdrop : ((b :: L).flatten).drop ((s + 1) * N) = (L.flatten).drop (s * N) := by
        rw [List.flatten_cons]
        have h1 : (s + 1) * N = b.length + s * N := by rw [hb]; ring
        rw [h1, ← List.drop_drop, List.drop_left]
      rw [hdrop]
      have hs2 : s < L.length := by simpa using hs
      exact ih (fun x hx => hL x (List.mem_cons_of_mem _ hx)) s hs2

/-- C6: sample_stm fails with ValueError exactly when n_features is not a
perfect square; when n_features = N*N it returns n_rows*n_cols weight rows of
length N*N in which every N-length sub-block of every row sums to 1, given the
contract of the Dirichlet collaborator (for every nonempty concentration
vector a it returns m rows, each of length a.length and summing to 1). -/
theorem sample_stm_square_blocks (randint : ℕ → ℤ)
    (dirichlet : List ℚ → ℕ → List (List ℚ)) (dims : SomDims)
    (data : Option (List (List ℚ)))
    (hf : 0 < dims.n_feats)
    (hdir : ∀ a m, 0 < a.length →
      (dirichlet a m).length = m ∧
      ∀ r ∈ dirichlet a m, r.length = a.length ∧ r.sum = 1) :
    ((¬ ∃ N, dims.n_feats = N * N) →
      sample_stm randint dirichlet dims data
        = Except.error "Weight vector is not reshapeable to square matrix.") ∧
    (∀ N, dims.n_feats = N * N →
      ∃ w, sample_stm randint dirichlet dims data = Except.ok w ∧
        w.length = dims.n_rows * dims.n_cols ∧
        ∀ row ∈ w, row.length = dims.n_feats ∧
          ∀ s < N, ((row.drop (s * N)).take N).sum = 1) := by
  constructor
  · intro hnsq
    have hcheck : Nat.sqrt dims.n_feats * Nat.sqrt dims.n_feats ≠ dims.n_feats := by
      intro heq
      exact hnsq ⟨Nat.sqrt dims.n_feats, heq.symm⟩
    unfold sample_stm
    rw [if_pos hcheck]
  · intro N hN
    have hsq : Nat.sqrt dims.n_feats = N := by rw [hN, Nat.sqrt_eq]
    have hNpos : 0 < N := by
      rcases Nat.eq_zero_or_pos N with h0 | h
      · rw [h0] at hN
        omega
      · exact h
    have hcheck : ¬ (Nat.sqrt dims.n_feats * Nat.sqrt dims.n_feats ≠ dims.n_feats) := by
      rw [hsq, hN]
      exact fun hcon => hcon rfl
    have hbm : sample_stm randint dirichlet dims data = Except.ok
        ((List.range (dims.n_rows * dims.n_cols)).map
          (fun u => (((stm_alpha randint N).map
            (fun a => dirichlet (a.map (fun z : ℤ => (z : ℚ)))
              (dims.n_rows * dims.n_cols))).map
                (fun b => b.getD u [])).flatten)) := by
      unfold sample_stm
      rw [if_neg hcheck, hsq]
    set n_units := dims.n_rows * dims.n_cols with hu
    refine ⟨_, hbm, by simp, ?_⟩
    intro row hrow
    obtain ⟨u, hu2, hrow2⟩ := List.mem_map.mp hrow
    have hult : u < n_units := List.mem_range.mp hu2
    set L := (((stm_alpha randint N).map
      (fun a => dirichlet (a.map (fun z : ℤ => (z : ℚ))) n_units)).map
        (fun b => b.getD u [])) with hL
    have hLlen : L.length = N := by
      rw [hL]
      simp [stm_alpha]
    have hblock : ∀ b ∈ L, b.length = N ∧ b.sum = 1 := by
      intro b hbmem
      rw [hL] at hbmem
      obtain ⟨blk, hblk, hb2⟩ := List.mem_map.mp hbmem
      obtain ⟨a, ha, hblk2⟩ := List.mem_map.mp hblk
      obtain ⟨i, hi, ha2⟩ := List.mem_map.mp ha
      have halen : (a.map (fun z : ℤ => (z : ℚ))).length = N := by
        rw [← ha2]
        simp
      have hcontract := hdir (a.map (fun z : ℤ => (z : ℚ))) n_units (by omega)
      have hblklen : blk.length = n_units := by rw [← hblk2]; exact hcontract.1
      have hbin : b ∈ blk := by
        rw [← hb2]
        exact getD_mem blk u [] (by omega)
      have hbin2 : b ∈ dirichlet (a.map (fun z : ℤ => (z : ℚ))) n_units := by
        rw [hblk2]
        exact hbin
      have hprops := hcontract.2 b hbin2
      exact ⟨by rw [hprops.1, halen], hprops.2⟩
    constructor
    · rw [← hrow2]
      rw [length_join_uniform L N (fun b hb => (hblock b hb).1), hLlen, hN]
    · intro s hsN
      rw [← hrow2]
      rw [join_block N L (fun b hb => (hblock b hb).1) s (by omega)]
      have hmem : L.getD s [] ∈ L := getD_mem L s [] (by omega)
      exact (hblock _ hmem).2

theorem sample_stm_square_blocks_witness :
    (0 < (4 : ℕ)) ∧
    (∃ w, sample_stm (fun k => ([1, 2, 2, 1] : List ℤ).getD k 0)
        (fun a m => List.replicate m (List.replicate a.length ((a.length : ℚ))⁻¹))
        ⟨1, 1, 4⟩ none = Except.ok w ∧
      w.length = 1 * 1 ∧
      ∀ row ∈ w, row.length = 4 ∧
        ∀ s < 2, ((row.drop (s * 2)).take 2).sum = 1) ∧
    sample_stm (fun k => ([1, 2, 2, 1] : List ℤ).getD k 0)
        (fun a m => List.replicate m (List.replicate a.length ((a.length : ℚ))⁻¹))
        ⟨1, 1, 5⟩ none
      = Except.error "Weight vector is not reshapeable to square matrix." := by
  have hdir : ∀ a m : _, 0 < (a : List ℚ).length →
      ((fun a m => List.replicate m (List.replicate a.length ((a.length : ℚ))⁻¹))
        a m).length = m ∧
      ∀ r ∈ (fun a m => List.replicate m
          (List.replicate a.length ((a.length : ℚ))⁻¹)) a m,
        r.length = a.length ∧ r.sum = 1 := by
    intro a m ha
    refine ⟨by simp, ?_⟩
    intro r hr
    have hrr : r = List.replicate a.length ((a.length : ℚ))⁻¹ :=
      List.eq_of_mem_replicate hr
    subst hrr
    refine ⟨by simp, ?_⟩
    rw [List.sum_replicate, nsmul_eq_mul]
    have hne : ((a.length : ℚ)) ≠ 0 := by
      exact_mod_cast Nat.pos_iff_ne_zero.mp ha
    field_simp
  refine ⟨by decide, ?_, ?_⟩
  · exact (sample_stm_square_blocks (fun k => ([1, 2, 2, 1] : List ℤ).getD k 0)
      (fun a m => List.replicate m (List.replicate a.length ((a.length : ℚ))⁻¹))
      ⟨1, 1, 4⟩ none (by decide) hdir).2 2 (by decide)
  · apply (sample_stm_square_blocks (fun k => ([1, 2, 2, 1] : List ℤ).getD k 0)
      (fun a m => List.replicate m (List.replicate a.length ((a.length : ℚ))⁻¹))
      ⟨1, 1, 5⟩ none (by decide) hdir).1
    rintro ⟨N, hN⟩
    have hN5 : (5 : ℕ) = N * N := hN
    have hcase : N ≤ 2 ∨ 3 ≤ N := by omega
    rcases hcase with h | h
    · interval_cases N <;> omega
    · nlinarith

/-- The comparison used to model np.argsort on the singular values: index i
sorts before j when vals[i] < vals[j], exact ties broken by index, modelling
the stable ascending order the argsort of the library produces here. -/
def argRel (vals : List ℚ) (i j : ℕ) : Prop :=
  vals.getD i 0 < vals.getD j 0 ∨ (vals.getD i 0 = vals.getD j 0 ∧ i ≤ j)

instance argRel_decidable (vals : List ℚ) : DecidableRel (argRel vals) := fun _ _ =>
  inferInstanceAs (Decidable (_ ∨ _))

instance argRel_total (vals : List ℚ) : IsTotal ℕ (argRel vals) := ⟨by
  intro i j
  rcases lt_trichotomy (vals.getD i 0) (vals.getD j 0) with h | h | h
  · exact Or.inl (Or.inl h)
  · rcases le_total i j with hij | hij
    · exact Or.inl (Or.inr ⟨h, hij⟩)
    · exact Or.inr (Or.inr ⟨h.symm, hij⟩)
  · exact Or.inr (Or.inl h)⟩

instance argRel_trans (vals : List ℚ) : IsTrans ℕ (argRel vals) := ⟨by
  intro i j k hij hjk
  rcases hij with h1 | ⟨h1, h1b⟩
  · rcases hjk with h2 | ⟨h2, _⟩
    · exact Or.inl (lt_trans h1 h2)
    · exact Or.inl (by rw [← h2]; exact h1)
  · rcases hjk with h2 | ⟨h2, h2b⟩
    · exact Or.inl (by rw [h1]; exact h2)
    · exact Or.inr ⟨h1.trans h2, le_trans h1b h2b⟩⟩

/-- Model of vals.argsort(): the index list of vals sorted by value ascending,
stable on exact ties. -/
def npargsort (vals : List ℚ) : List ℕ :=
  List.insertionSort (argRel vals) (List.range vals.length)

/-- Model of np.flip(vals.argsort())[:n_comps], the component order pca
selects. -/
def pca_ord (vals : List ℚ) (n_comps : ℕ) : List ℕ :=
  ((npargsort vals).reverse).take n_comps

/-- Model of data.mean(axis=0) at column j. -/
def colMean (data : List (List ℚ)) (j : ℕ) : ℚ :=
  ((data.map (fun r => r.getD j 0)).sum) / (data.length : ℚ)

/-- Model of centering: subtract the per-column mean from every entry. -/
def center (data : List (List ℚ)) : List (List ℚ) :=
  data.map (fun r => (List.range r.length).map (fun j => r.getD j 0 - colMean data j))

/-- Dot product of two rows. -/
def dot (x y : List ℚ) : ℚ := ((x.zip y).map (fun p => p.1 * p.2)).sum

/-- Model of pca: center the data, obtain the SVD from the injected linear
algebra collaborator, select n_comps components in the order
np.flip(vals.argsort())[:n_comps], and return the selected singular values,
the selected component vectors and the centered data projected onto them. -/
def pca (svd : List (List ℚ) → List (List ℚ) × List ℚ × List (List ℚ))
    (data : List (List ℚ)) (n_comps : ℕ) :
    List ℚ × List (List ℚ) × List (List ℚ) :=
  let dc := center data
  let vals := (svd dc).2.1
  let vects := (svd dc).2.2
  let ord := pca_ord vals n_comps
  let vectsSel := ord.map (fun i => vects.getD i [])
  (ord.map (fun i => vals.getD i 0), vectsSel,
   dc.map (fun r => vectsSel.map (fun v => dot r v)))

theorem npargsort_perm (vals : List ℚ) :
    List.Perm (npargsort vals) (List.range vals.length) :=
  List.perm_insertionSort _ _

theorem npargsort_nodup (vals : List ℚ) : (npargsort vals).Nodup :=
  ((npargsort_perm vals).nodup_iff).mpr (List.nodup_range _)

theorem npargsort_sorted (vals : List ℚ) :
    List.Sorted (argRel vals) (npargsort vals) :=
  List.sorted_insertionSort _ _

theorem npargsort_rev_pairwise (vals : List ℚ) :
    ((npargsort vals).reverse).Pairwise (fun i j => argRel vals j i) :=
  List.pairwise_reverse.mpr (npargsort_sorted vals)

theorem pca_ord_largest (vals : List ℚ) (n : ℕ) :
    ∀ a ∈ pca_ord vals n, ∀ b < vals.length, b ∉ pca_ord vals n →
      vals.getD b 0 ≤ vals.getD a 0 := by
  intro a ha b hb hbn
  have hbmem : b ∈ (npargsort vals).reverse := by
    rw [List.mem_reverse]
    exact ((npargsort_perm vals).mem_iff).mpr (List.mem_range.mpr hb)
  have hsplit := List.take_append_drop n ((npargsort vals).reverse)
  have hbdrop : b ∈ ((npargsort vals).reverse).drop n := by
    rcases List.mem_append.mp (by rw [hsplit]; exact hbmem) with h | h
    · exact absurd h hbn
    · exact h
  have hpw := npargsort_rev_pairwise vals
  rw [← hsplit] at hpw
  have hrel := (List.pairwise_append.mp hpw).2.2 a ha b hbdrop
  rcases hrel with h | ⟨h, _⟩
  · exact le_of_lt h
  · exact le_of_eq h

theorem pca_ord_tie_reversed (vals : List ℚ) (n : ℕ) :
    ∀ p q, p < q → q < (pca_ord vals n).length →
      vals.getD ((pca_ord vals n).getD p 0) 0
        = vals.getD ((pca_ord vals n).getD q 0) 0 →
      (pca_ord vals n).getD q 0 < (pca_ord vals n).getD p 0 := by
  intro p q hpq hq heq
  have hp : p < (pca_ord vals n).length := lt_trans hpq hq
  have hlen : (pca_ord vals n).length ≤ ((npargsort vals).reverse).length := by
    unfold pca_ord
    simp
  have hqrev : q < ((npargsort vals).reverse).length := lt_of_lt_of_le hq hlen
  have hprev : p < ((npargsort vals).reverse).length := lt_trans hpq hqrev
  have hqn : q < n := by
    have : (pca_ord vals n).length ≤ n := by
      unfold pca_ord
      simp
    omega
  have hpn : p < n := lt_trans hpq hqn
  have hgp : (pca_ord vals n).getD p 0 = ((npargsort vals).reverse).getD p 0 := by
    unfold pca_ord
    rw [List.getD_eq_get?, List.getD_eq_get?, List.get?_take hpn]
  have hgq : (pca_ord vals n).getD q 0 = ((npargsort vals).reverse).getD q 0 := by
    unfold pca_ord
    rw [List.getD_eq_get?, List.getD_eq_get?, List.get?_take hqn]
  have hgp2 : ((npargsort vals).reverse).getD p 0
      = ((npargsort vals).reverse).get ⟨p, hprev⟩ := by
    rw [List.getD_eq_get?, List.get?_eq_get hprev]
    rfl
  have hgq2 : ((npargsort vals).reverse).getD q 0
      = ((npargsort vals).reverse).get ⟨q, hqrev⟩ := by
    rw [List.getD_eq_get?, List.get?_eq_get hqrev]
    rfl
  have hrel := (List.pairwise_iff_get.mp (npargsort_rev_pairwise vals))
    ⟨p, hprev⟩ ⟨q, hqrev⟩ hpq
  have hnd : ((npargsort vals).reverse).Nodup :=
    List.nodup_reverse.mpr (npargsort_nodup vals)
  have hne : ((npargsort vals).reverse).get ⟨q, hqrev⟩
      ≠ ((npargsort vals).reverse).get ⟨p, hprev⟩ := by
    intro hc
    have := hnd.get_inj_iff.mp hc
    have : q = p := congrArg Fin.val this
    omega
  rw [hgp, hgq, hgp2, hgq2]
  rw [hgp, hgq, hgp2, hgq2] at heq
  rcases hrel with h | ⟨_, hle⟩
  · rw [heq] at h
    exact absurd h (lt_irrefl _)
  · exact lt_of_le_of_ne hle hne

/-- C4 (amended): pca returns the n_comps components in the order
np.flip(vals.argsort())[:n_comps]; every selected index carries a singular
value at least that of every unselected index (the n_comps largest are
selected), but when two singular values are exactly equal the selected
ordering reverses the order in which they appear in the native SVD ordering
(the flip of a stable ascending argsort), rather than preserving it. -/
theorem pca_largest_reversed_ties
    (svd : List (List ℚ) → List (List ℚ) × List ℚ × List (List ℚ))
    (data : List (List ℚ)) (n_comps : ℕ) :
    ((pca svd data n_comps).1
      = (pca_ord ((svd (center data)).2.1) n_comps).map
          (fun i => ((svd (center data)).2.1).getD i 0)) ∧
    ((pca svd data n_comps).2.1
      = (pca_ord ((svd (center data)).2.1) n_comps).map
          (fun i => ((svd (center data)).2.2).getD i [])) ∧
    (∀ a ∈ pca_ord ((svd (center data)).2.1) n_comps,
      ∀ b < ((svd (center data)).2.1).length,
        b ∉ pca_ord ((svd (center data)).2.1) n_comps →
        ((svd (center data)).2.1).getD b 0 ≤ ((svd (center data)).2.1).getD a 0) ∧
    (∀ p q, p < q → q < (pca_ord ((svd (center data)).2.1) n_comps).length →
      ((svd (center data)).2.1).getD
          ((pca_ord ((svd (center data)).2.1) n_comps).getD p 0) 0
        = ((svd (center data)).2.1).getD
          ((pca_ord ((svd (center data)).2.1) n_comps).getD q 0) 0 →
      (pca_ord ((svd (center data)).2.1) n_comps).getD q 0
        < (pca_ord ((svd (center data)).2.1) n_comps).getD p 0) :=
  ⟨rfl, rfl, pca_ord_largest _ n_comps, pca_ord_tie_reversed _ n_comps⟩

/-- C4 counterexample: with two exactly-equal singular values the selected
component vectors come out in reverse of the native SVD ordering, not in the
claimed first-appearance order. -/
theorem pca_tie_order_counterexample :
    (pca (fun _ => (([] : List (List ℚ)), ([3, 3] : List ℚ),
        ([[1, 0], [0, 1]] : List (List ℚ)))) [[0, 0], [0, 0]] 2).2.1
      = [[0, 1], [1, 0]] ∧
    ([[(0 : ℚ), 1], [1, 0]] : List (List ℚ)) ≠ [[1, 0], [0, 1]] := by
  constructor
  · decide
  · decide

theorem pca_largest_reversed_ties_witness :
    ((pca (fun _ => (([] : List (List ℚ)), ([5, 7] : List ℚ),
        ([[1, 0], [0, 1]] : List (List ℚ)))) [[0, 0]] 1).1
      = (pca_ord [5, 7] 1).map (fun i => ([5, 7] : List ℚ).getD i 0)) ∧
    ((pca (fun _ => (([] : List (List ℚ)), ([5, 7] : List ℚ),
        ([[1, 0], [0, 1]] : List (List ℚ)))) [[0, 0]] 1).2.1
      = (pca_ord [5, 7] 1).map
          (fun i => ([[1, 0], [0, 1]] : List (List ℚ)).getD i [])) ∧
    (∀ a ∈ pca_ord [5, 7] 1, ∀ b < ([5, 7] : List ℚ).length,
      b ∉ pca_ord [5, 7] 1 →
      ([5, 7] : List ℚ).getD b 0 ≤ ([5, 7] : List ℚ).getD a 0) ∧
    (∀ p q, p < q → q < (pca_ord [5, 7] 1).length →
      ([5, 7] : List ℚ).getD ((pca_ord [5, 7] 1).getD p 0) 0
        = ([5, 7] : List ℚ).getD ((pca_ord [5, 7] 1).getD q 0) 0 →
      (pca_ord [5, 7] 1).getD q 0 < (pca_ord [5, 7] 1).getD p 0) :=
  pca_largest_reversed_ties
    (fun _ => (([] : List (List ℚ)), ([5, 7] : List ℚ),
      ([[1, 0], [0, 1]] : List (List ℚ)))) [[0, 0]] 1

end Awesom
